import Mathlib

/-!
A shallow embedding of `src/compression/huffman.py` (Huffman coding over
byte sequences, with the tree serialized in front of the payload).

Conventions of the embedding:
* a byte is a `Nat` (Python guarantees `0 ≤ b < 256` for bytes objects);
* a bit sequence is a `List Bool`, most significant bit first, matching the
  `bitstring` library's bit order;
* a `bitstring.ReadError` (stream exhaustion) is modelled by `Option`:
  `none` is the raised error;
* Python dicts of weights are association lists `List (Nat × Nat)` in
  insertion order; dict keys are unique, which theorems state as `Nodup`
  hypotheses where it matters;
* the three loops of the source that are not structurally recursive are
  given explicit fuel; each top-level entry point passes fuel that is
  provably sufficient except where the Python loop genuinely does not
  terminate (the payload loop over a single-leaf tree), where every fuel
  yields `none`.
-/

namespace Huffman

/-- One byte as 8 bits, most significant first (`bitstring` packing order). -/
def byteToBits (b : Nat) : List Bool :=
  [b.testBit 7, b.testBit 6, b.testBit 5, b.testBit 4,
   b.testBit 3, b.testBit 2, b.testBit 1, b.testBit 0]

/-- A byte buffer as a bit stream (`bitstring.BitStream(data)`). -/
def bytesToBits : List Nat → List Bool
  | [] => []
  | b :: bs => byteToBits b ++ bytesToBits bs

/-- Read a bit list as an unsigned integer, most significant bit first
(`stream.read("uint:8")` applied to the 8 bits it consumes). -/
def bitsToNat (l : List Bool) : Nat :=
  l.foldl (fun n b => 2 * n + (if b then 1 else 0)) 0

/-- Model of `BitArray.tobytes()`: pack bits into bytes, zero-padding the final
partial byte on the right. -/
def bitsToBytes : List Bool → List Nat
  | [] => []
  | b0 :: b1 :: b2 :: b3 :: b4 :: b5 :: b6 :: b7 :: rest =>
      bitsToNat [b0, b1, b2, b3, b4, b5, b6, b7] :: bitsToBytes rest
  | l => [bitsToNat (l ++ List.replicate (8 - l.length) false)]

/-- The tree of `huffman.py`: `LeafNode(symbol, weight, code)` and
`Node(left, right)`.  An internal `Node` stores the aggregate weight and its
left child's representative symbol, exactly the fields `__init__` sets
(a Python `weight = None` is modelled as `0`; it is never compared). -/
inductive HTree : Type
  | leaf (symbol : Nat) (weight : Nat) (code : List Bool)
  | node (weight : Nat) (symbol : Nat) (left right : HTree)
deriving DecidableEq, Repr

namespace HTree

/-- The `weight` attribute. -/
def wt : HTree → Nat
  | .leaf _ w _ => w
  | .node w _ _ _ => w

/-- The `symbol` attribute (for a `Node`, its left child's symbol as stored
by `Node.__init__`). -/
def sym : HTree → Nat
  | .leaf s _ _ => s
  | .node _ s _ _ => s

/-- Model of `add_to_code(bit)`: prepend `bit` to the stored code of every leaf. -/
def addToCode (b : Bool) : HTree → HTree
  | .leaf s w c => .leaf s w (b :: c)
  | .node w s l r => .node w s (addToCode b l) (addToCode b r)

/-- Model of `codes()`: the symbol → code table, as the list of leaf
`(symbol, code)` pairs in left-to-right order (`dict.update` merging of
the two children's tables). -/
def codes : HTree → List (Nat × List Bool)
  | .leaf s _ c => [(s, c)]
  | .node _ _ l r => codes l ++ codes r

/-- Model of `read(stream)`: descend from this node, bit `1` → left, `0` → right,
until a leaf; return its symbol and the rest of the stream.  `none` is a
`ReadError` (exhaustion) during the descent. -/
def treeRead : HTree → List Bool → Option (Nat × List Bool)
  | .leaf s _ _, stream => some (s, stream)
  | .node _ _ _ _, [] => none
  | .node _ _ l r, bit :: rest => if bit then treeRead l rest else treeRead r rest

/-- Model of `binary()`: preorder serialization; `1` + 8-bit symbol for a leaf,
`0` then both children for an internal node. -/
def serialize : HTree → List Bool
  | .leaf s _ _ => true :: byteToBits s
  | .node _ _ l r => false :: (serialize l ++ serialize r)

/-- Model of `Node._from_binary(stream, code)`.  The fuel bounds the recursion
depth; since every level of the recursion first consumes at least one bit
of the stream, fuel equal to the stream length (as passed by
`deserialize`) can only run out together with the stream, so `none` is
exactly a raised `ReadError`. -/
def deserializeAux : Nat → List Bool → List Bool → Option (HTree × List Bool)
  | 0, _, _ => none
  | fuel + 1, code, stream =>
    match stream with
    | [] => none
    | true :: s =>
      if 8 ≤ s.length then
        some (.leaf (bitsToNat (s.take 8)) 0 code, s.drop 8)
      else none
    | false :: s =>
      match deserializeAux fuel (code ++ [true]) s with
      | none => none
      | some (l, s1) =>
        match deserializeAux fuel (code ++ [false]) s1 with
        | none => none
        | some (r, s2) => some (.node 0 (sym l) l r, s2)

/-- Model of `Node.from_binary(stream)`: deserialize starting with an empty code. -/
def deserialize (stream : List Bool) : Option (HTree × List Bool) :=
  deserializeAux stream.length [] stream

/-- The root-to-leaf paths of a tree, `true` into the left child and
`false` into the right, each extending the accumulator `p`: the code table
a decoder effectively uses when it descends with `read`. -/
def pathCodes : HTree → List Bool → List (Nat × List Bool)
  | .leaf s _ _, p => [(s, p)]
  | .node _ _ l r, p => pathCodes l (p ++ [true]) ++ pathCodes r (p ++ [false])

/-- The tree `_from_binary` rebuilds from `serialize t ++ …`: same shape
and symbols as `t`, weights unknown (`None`, modelled `0`), stored codes
recomputed from the descent path below `code`. -/
def reconstruct : HTree → List Bool → HTree
  | .leaf s _ _, code => .leaf s 0 code
  | .node _ _ l r, code =>
    let L := reconstruct l (code ++ [true])
    .node 0 L.sym L (reconstruct r (code ++ [false]))

/-- Every leaf symbol fits in the 8 bits `binary()` gives it. -/
def symOk : HTree → Prop
  | .leaf s _ _ => s < 256
  | .node _ _ l r => symOk l ∧ symOk r

/-- The stored leaf codes agree with the root-to-leaf paths — the
invariant `from_data`'s `add_to_code` calls maintain. -/
def pathCoded (t : HTree) : Prop :=
  t.codes = pathCodes t []

end HTree

/-- Model of `Node.__lt__`: compare by weight, ties broken by representative
symbol. -/
def nodeLt (a b : HTree) : Bool :=
  if a.wt = b.wt then a.sym < b.sym else a.wt < b.wt

/-- Model of `heapq.heappop`: remove and return the least element under
`Node.__lt__` (the leftmost one among equals; in every reachable heap the
representative symbols are pairwise distinct, so the order is strict total
and the choice unique). -/
def popMin : List HTree → Option (HTree × List HTree)
  | [] => none
  | t :: l =>
    match popMin l with
    | none => some (t, [])
    | some (m, rest) =>
      if nodeLt m t then some (m, t :: rest) else some (t, m :: rest)

/-- The merge of one iteration of `from_data`'s loop:
`first.add_to_code(1); second.add_to_code(0); Node(first, second)`
(`add_to_code` changes neither `weight` nor `symbol`, so the new node's
fields equal those computed by `Node.__init__`). -/
def mergeNodes (first second : HTree) : HTree :=
  .node (first.wt + second.wt) first.sym
    (HTree.addToCode true first) (HTree.addToCode false second)

/-- The `while len(heap) > 1` loop of `from_data` followed by `heap[0]`;
`none` is the `IndexError` on an empty heap.  Each iteration shrinks the
heap by one, so the fuel `heap.length` passed by `buildTree` never runs
out (`buildLoop_some`). -/
def buildLoop : Nat → List HTree → Option HTree
  | _, [] => none
  | _, [t] => some t
  | 0, _ :: _ :: _ => none
  | fuel + 1, a :: b :: l =>
    match popMin (a :: b :: l) with
    | none => none
    | some (first, heap1) =>
      match popMin heap1 with
      | none => none
      | some (second, heap2) =>
        buildLoop fuel (mergeNodes first second :: heap2)

/-- One step of `collections.Counter`: record one occurrence of `b`. -/
def bumpCount (acc : List (Nat × Nat)) (b : Nat) : List (Nat × Nat) :=
  if acc.any (fun p => p.1 = b) then
    acc.map (fun p => if p.1 = b then (p.1, p.2 + 1) else p)
  else acc ++ [(b, 1)]

/-- Model of `collections.Counter(data).items()`: occurrence counts keyed in
first-appearance order. -/
def counter (data : List Nat) : List (Nat × Nat) :=
  data.foldl bumpCount []

/-- The weights actually used by `from_data`: the caller's dict if given,
else `Counter(data)`. -/
def effectiveWeights (data : List Nat) : Option (List (Nat × Nat)) → List (Nat × Nat)
  | none => counter data
  | some w => w

/-- Model of `Node.from_data(data, weights)`. -/
def buildTree (data : List Nat) (weights : Option (List (Nat × Nat))) : Option HTree :=
  let heap := (effectiveWeights data weights).map (fun p => HTree.leaf p.1 p.2 [])
  buildLoop heap.length heap

/-- Python dict lookup on the assembled code table (`codes[byte]`); for a
duplicated key the later entry wins, as with `dict.update`.  `none` is the
`KeyError`. -/
def dictLookup (l : List (Nat × List Bool)) (k : Nat) : Option (List Bool) :=
  l.foldl (fun acc p => if p.1 = k then some p.2 else acc) none

/-- The payload: each input byte's code, concatenated in input order
(`for byte in data: output.append(codes[byte])`). -/
def encodePayload (codes : List (Nat × List Bool)) : List Nat → Option (List Bool)
  | [] => some []
  | b :: bs =>
    match dictLookup codes b, encodePayload codes bs with
    | some c, some rest => some (c ++ rest)
    | _, _ => none

/-- Model of `compress(data, weights)`: serialized tree, payload, then the front
padding `(pad_bits - 1)` zeros and a `1`, packed to bytes.  `none` is any
exception surfaced to the caller. -/
def compress (data : List Nat) (weights : Option (List (Nat × Nat))) : Option (List Nat) :=
  match buildTree data weights with
  | none => none
  | some tree =>
    match encodePayload tree.codes data with
    | none => none
    | some payload =>
      let body := tree.serialize ++ payload
      let padBits0 := 8 - body.length % 8
      let padBits := if padBits0 = 0 then 8 else padBits0
      some (bitsToBytes ((List.replicate (padBits - 1) false ++ [true]) ++ body))

/-- Model of `while not stream.read("bool"): pass` — drop bits up to and including
the first `1`.  `none` is the uncaught `ReadError` when the stream holds
no `1` bit. -/
def skipPadding : List Bool → Option (List Bool)
  | [] => none
  | true :: s => some s
  | false :: s => skipPadding s

/-- The decompression payload loop `while 1: out.append(tree.read(stream))`
with explicit fuel: `none` means the loop has not terminated within `fuel`
iterations.  Termination happens only through a `ReadError` from
`tree.read`; an internal-node root consumes at least one bit per
iteration, so `decompress`'s fuel suffices there, while a single-leaf root
consumes nothing and the Python loop runs forever (`none` for every
fuel). -/
def decodeLoop : Nat → HTree → List Bool → List Nat → Option (List Nat)
  | 0, _, _, _ => none
  | fuel + 1, t, s, acc =>
    match t.treeRead s with
    | none => some acc
    | some (symbol, s1) => decodeLoop fuel t s1 (acc ++ [symbol])

/-- The observable outcome of `decompress`: a normal return, or an
uncaught `bitstring.ReadError` (the tag records the phase that raised
it — padding scan or tree deserialization; Python raises the same
exception type from both). -/
inductive DOut : Type
  | ok (out : List Nat)
  | padError
  | treeError
deriving DecidableEq, Repr

/-- Model of `decompress(data)` with explicit fuel for the payload loop. -/
def decompressFuel (fuel : Nat) (data : List Nat) : Option DOut :=
  match skipPadding (bytesToBits data) with
  | none => some .padError
  | some rest =>
    match HTree.deserialize rest with
    | none => some .treeError
    | some (tree, rest2) =>
      (decodeLoop fuel tree rest2 []).map .ok

/-- Model of `decompress(data)`.  The payload stream holds fewer than
`8 * data.length + 1` bits and every iteration over an internal-node root
consumes at least one bit, so this fuel is exhausted (`none`) exactly when
the source's loop does not terminate. -/
def decompress (data : List Nat) : Option DOut :=
  decompressFuel (8 * data.length + 1) data

/-! ### Bit/byte packing lemmas -/

theorem byteToBits_length (b : Nat) : (byteToBits b).length = 8 := rfl

set_option maxRecDepth 4000 in
theorem bitsToNat_byteToBits_fin : ∀ f : Fin 256, bitsToNat (byteToBits f.val) = f.val := by
  decide

theorem bitsToNat_byteToBits {b : Nat} (h : b < 256) : bitsToNat (byteToBits b) = b :=
  bitsToNat_byteToBits_fin ⟨b, h⟩

theorem byteToBits_bitsToNat : ∀ b0 b1 b2 b3 b4 b5 b6 b7 : Bool,
    byteToBits (bitsToNat [b0, b1, b2, b3, b4, b5, b6, b7]) =
      [b0, b1, b2, b3, b4, b5, b6, b7] := by
  decide

theorem bytesToBits_length (data : List Nat) : (bytesToBits data).length = 8 * data.length := by
  induction data with
  | nil => rfl
  | cons b bs ih => simp [bytesToBits, byteToBits, ih]; omega

theorem bytesToBits_bitsToBytes (l : List Bool) (h : l.length % 8 = 0) :
    bytesToBits (bitsToBytes l) = l := by
  induction l using bitsToBytes.induct with
  | case1 => rfl
  | case2 b0 b1 b2 b3 b4 b5 b6 b7 rest ih =>
      have hr : rest.length % 8 = 0 := by
        simp only [List.length_cons] at h; omega
      have hb := byteToBits_bitsToNat b0 b1 b2 b3 b4 b5 b6 b7
      simp [bitsToBytes, bytesToBits, ih hr, hb]
  | case3 l h1 h2 =>
      exfalso
      rcases l with _ | ⟨a, l⟩
      · exact h1 rfl
      rcases l with _ | ⟨a1, l⟩
      · simp at h
      rcases l with _ | ⟨a2, l⟩
      · simp at h
      rcases l with _ | ⟨a3, l⟩
      · simp at h
      rcases l with _ | ⟨a4, l⟩
      · simp at h
      rcases l with _ | ⟨a5, l⟩
      · simp at h
      rcases l with _ | ⟨a6, l⟩
      · simp at h
      rcases l with _ | ⟨a7, l⟩
      · simp at h
      · exact h2 a a1 a2 a3 a4 a5 a6 a7 l rfl

theorem bitsToBytes_length (l : List Bool) (h : l.length % 8 = 0) :
    8 * (bitsToBytes l).length = l.length := by
  have := congrArg List.length (bytesToBits_bitsToBytes l h)
  rwa [bytesToBits_length] at this

/-! ### Padding-scan lemmas -/

theorem skipPadding_replicate (n : Nat) : skipPadding (List.replicate n false) = none := by
  induction n with
  | zero => rfl
  | succ n ih => simpa [List.replicate_succ, skipPadding] using ih

theorem skipPadding_marker (n : Nat) (rest : List Bool) :
    skipPadding (List.replicate n false ++ true :: rest) = some rest := by
  induction n with
  | zero => rfl
  | succ n ih => simpa [List.replicate_succ, skipPadding] using ih

theorem skipPadding_length {l rest : List Bool} (h : skipPadding l = some rest) :
    rest.length < l.length := by
  induction l with
  | nil => simp [skipPadding] at h
  | cons b s ih =>
      cases b with
      | true =>
          simp only [skipPadding, Option.some.injEq] at h
          simp [← h]
      | false =>
          simp only [skipPadding] at h
          have := ih h
          simp; omega

/-! ### Tree lemmas -/

open HTree

theorem codes_addToCode (b : Bool) (t : HTree) :
    (addToCode b t).codes = t.codes.map (fun p => (p.1, b :: p.2)) := by
  induction t with
  | leaf s w c => rfl
  | node w s l r ihl ihr => simp [addToCode, codes, ihl, ihr]

theorem pathCodes_shift (t : HTree) (p : List Bool) :
    pathCodes t p = (pathCodes t []).map (fun q => (q.1, p ++ q.2)) := by
  induction t generalizing p with
  | leaf s w c => simp [pathCodes]
  | node w s l r ihl ihr =>
      simp only [pathCodes, List.nil_append]
      rw [ihl (p ++ [true]), ihr (p ++ [false]), ihl [true], ihr [false]]
      simp [List.map_map, Function.comp_def]

theorem pathCodes_addToCode (b : Bool) (t : HTree) (p : List Bool) :
    pathCodes (addToCode b t) p = pathCodes t p := by
  induction t generalizing p with
  | leaf s w c => rfl
  | node w s l r ihl ihr => simp [addToCode, pathCodes, ihl, ihr]

theorem pathCoded_merge {f s : HTree} (hf : pathCoded f) (hs : pathCoded s) :
    pathCoded (mergeNodes f s) := by
  unfold pathCoded at hf hs ⊢
  simp only [mergeNodes, codes, pathCodes, List.nil_append,
    codes_addToCode, pathCodes_addToCode, hf, hs,
    pathCodes_shift _ [true], pathCodes_shift _ [false]]
  simp

theorem symOk_iff (t : HTree) : symOk t ↔ ∀ x ∈ t.codes.map Prod.fst, x < 256 := by
  induction t with
  | leaf s w c => simp [symOk, codes]
  | node w s l r ihl ihr =>
      simp only [symOk, codes, ihl, ihr, List.map_append, List.mem_append]
      constructor
      · rintro ⟨h1, h2⟩ x hx
        rcases hx with hx | hx
        · exact h1 x hx
        · exact h2 x hx
      · intro h
        exact ⟨fun x hx => h x (Or.inl hx), fun x hx => h x (Or.inr hx)⟩

theorem codes_reconstruct (t : HTree) (code : List Bool) :
    (reconstruct t code).codes = pathCodes t code := by
  induction t generalizing code with
  | leaf s w c => rfl
  | node w s l r ihl ihr => simp [reconstruct, codes, pathCodes, ihl, ihr]

theorem pathCodes_reconstruct (t : HTree) (code p : List Bool) :
    pathCodes (reconstruct t code) p = pathCodes t p := by
  induction t generalizing code p with
  | leaf s w c => rfl
  | node w s l r ihl ihr => simp [reconstruct, pathCodes, ihl, ihr]

theorem treeRead_length : ∀ (t : HTree) {s s1 : List Bool} {a : Nat},
    treeRead t s = some (a, s1) → s1.length ≤ s.length := by
  intro t
  induction t with
  | leaf s0 w c =>
      intro s s1 a h
      simp only [treeRead, Option.some.injEq, Prod.mk.injEq] at h
      simp [h.2]
  | node w sy l r ihl ihr =>
      intro s s1 a h
      cases s with
      | nil => simp [treeRead] at h
      | cons bit rest =>
          simp only [treeRead] at h
          cases bit with
          | true =>
              simp only [if_true] at h
              exact le_trans (ihl h) (by simp)
          | false =>
              simp only [Bool.false_eq_true, if_false] at h
              exact le_trans (ihr h) (by simp)

theorem treeRead_node_length {w sy : Nat} {l r : HTree} {s s1 : List Bool} {a : Nat}
    (h : treeRead (.node w sy l r) s = some (a, s1)) : s1.length < s.length := by
  cases s with
  | nil => simp [treeRead] at h
  | cons bit rest =>
      simp only [treeRead] at h
      cases bit with
      | true =>
          simp only [if_true] at h
          exact lt_of_le_of_lt (treeRead_length l h) (by simp)
      | false =>
          simp only [Bool.false_eq_true, if_false] at h
          exact lt_of_le_of_lt (treeRead_length r h) (by simp)

theorem treeRead_pathCodes : ∀ (t : HTree) {a : Nat} {c : List Bool},
    (a, c) ∈ pathCodes t [] → ∀ rest : List Bool, treeRead t (c ++ rest) = some (a, rest) := by
  intro t
  induction t with
  | leaf s0 w c0 =>
      intro a c h rest
      simp only [pathCodes, List.mem_singleton, Prod.mk.injEq] at h
      simp [h.1, h.2, treeRead]
  | node w sy l r ihl ihr =>
      intro a c h rest
      simp only [pathCodes, List.nil_append, List.mem_append] at h
      rcases h with h | h
      · rw [pathCodes_shift] at h
        simp only [List.mem_map, Prod.mk.injEq] at h
        obtain ⟨⟨a0, c0⟩, hmem, ha, hc⟩ := h
        subst ha
        rw [← hc]
        simpa [treeRead] using ihl hmem rest
      · rw [pathCodes_shift] at h
        simp only [List.mem_map, Prod.mk.injEq] at h
        obtain ⟨⟨a0, c0⟩, hmem, ha, hc⟩ := h
        subst ha
        rw [← hc]
        simpa [treeRead] using ihr hmem rest

theorem pathCodes_node_ne_nil {w sy : Nat} {l r : HTree} {a : Nat} {c : List Bool}
    (h : (a, c) ∈ pathCodes (.node w sy l r) []) : c ≠ [] := by
  simp only [pathCodes, List.nil_append, List.mem_append] at h
  rcases h with h | h <;>
  · rw [pathCodes_shift] at h
    simp only [List.mem_map, Prod.mk.injEq] at h
    obtain ⟨q, _, _, hc⟩ := h
    rw [← hc]
    simp

/-! ### Serializer round-trip -/

theorem deserializeAux_serialize : ∀ (t : HTree) (fuel : Nat) (code extra : List Bool),
    symOk t → (serialize t).length ≤ fuel →
    deserializeAux fuel code (serialize t ++ extra) = some (reconstruct t code, extra) := by
  intro t
  induction t with
  | leaf s0 w c0 =>
      intro fuel code extra hok hfuel
      simp only [serialize, List.length_cons, byteToBits_length] at hfuel
      cases fuel with
      | zero => omega
      | succ f =>
          simp only [serialize, List.cons_append, deserializeAux]
          have hlen : 8 ≤ (byteToBits s0 ++ extra).length := by
            simp [byteToBits_length]
          rw [if_pos hlen]
          have htake : (byteToBits s0 ++ extra).take 8 = byteToBits s0 := by
            rw [show (8 : Nat) = (byteToBits s0).length from rfl]
            exact List.take_left _ _
          have hdrop : (byteToBits s0 ++ extra).drop 8 = extra := by
            rw [show (8 : Nat) = (byteToBits s0).length from rfl]
            exact List.drop_left _ _
          rw [htake, hdrop, bitsToNat_byteToBits hok]
          rfl
  | node w sy l r ihl ihr =>
      intro fuel code extra hok hfuel
      obtain ⟨hokl, hokr⟩ := hok
      simp only [serialize, List.length_cons, List.length_append] at hfuel
      cases fuel with
      | zero => omega
      | succ f =>
          simp only [serialize, List.cons_append, deserializeAux, List.append_assoc]
          simp only [ihl f (code ++ [true]) (serialize r ++ extra) hokl (by omega),
            ihr f (code ++ [false]) extra hokr (by omega)]
          rfl

theorem deserialize_serialize (t : HTree) (extra : List Bool) (h : symOk t) :
    deserialize (serialize t ++ extra) = some (reconstruct t [], extra) := by
  unfold deserialize
  exact deserializeAux_serialize t _ [] extra h (by simp)

theorem deserializeAux_length : ∀ (fuel : Nat) {code s : List Bool} {t : HTree} {rest : List Bool},
    deserializeAux fuel code s = some (t, rest) → rest.length ≤ s.length := by
  intro fuel
  induction fuel with
  | zero => intro code s t rest h; simp [deserializeAux] at h
  | succ f ih =>
      intro code s t rest h
      cases s with
      | nil => simp [deserializeAux] at h
      | cons bit s0 =>
          cases bit with
          | true =>
              simp only [deserializeAux] at h
              by_cases h8 : 8 ≤ s0.length
              · rw [if_pos h8] at h
                simp only [Option.some.injEq, Prod.mk.injEq] at h
                rw [← h.2]
                simp
                omega
              · rw [if_neg h8] at h
                exact absurd h (by simp)
          | false =>
              simp only [deserializeAux] at h
              split at h
              · exact absurd h (by simp)
              · rename_i t1 s1 h1
                split at h
                · exact absurd h (by simp)
                · rename_i t2 s2 h2
                  simp only [Option.some.injEq, Prod.mk.injEq] at h
                  have l1 := ih h1
                  have l2 := ih h2
                  rw [← h.2]
                  simp
                  omega

/-! ### Decode-loop lemmas -/

theorem decodeLoop_leaf (fuel : Nat) (s0 w : Nat) (c : List Bool) (stream : List Bool)
    (acc : List Nat) : decodeLoop fuel (.leaf s0 w c) stream acc = none := by
  induction fuel generalizing acc with
  | zero => rfl
  | succ f ih => simp [decodeLoop, treeRead, ih]

theorem decodeLoop_some_of_node : ∀ (fuel : Nat) {w sy : Nat} {l r : HTree}
    (s : List Bool) (acc : List Nat), s.length < fuel →
    ∃ out, decodeLoop fuel (.node w sy l r) s acc = some out := by
  intro fuel
  induction fuel with
  | zero => intro w sy l r s acc h; omega
  | succ f ih =>
      intro w sy l r s acc h
      cases hr : treeRead (.node w sy l r) s with
      | none => exact ⟨acc, by simp [decodeLoop, hr]⟩
      | some p =>
          obtain ⟨a, s1⟩ := p
          have hlt := treeRead_node_length hr
          obtain ⟨out, hout⟩ := @ih w sy l r s1 (acc ++ [a]) (by omega)
          exact ⟨out, by simp [decodeLoop, hr, hout]⟩

/-! ### Code-table lookup and payload lemmas -/

theorem dictLookup_foldl_mem : ∀ (l : List (Nat × List Bool)) (acc : Option (List Bool))
    {k : Nat} {v : List Bool},
    l.foldl (fun acc p => if p.1 = k then some p.2 else acc) acc = some v →
    (k, v) ∈ l ∨ acc = some v := by
  intro l
  induction l with
  | nil => intro acc k v h; exact Or.inr h
  | cons p l ih =>
      intro acc k v h
      rcases ih _ h with hm | hacc
      · exact Or.inl (List.mem_cons_of_mem _ hm)
      · have hacc2 : (if p.1 = k then some p.2 else acc) = some v := hacc
        by_cases hk : p.1 = k
        · rw [if_pos hk] at hacc2
          simp only [Option.some.injEq] at hacc2
          left
          rw [← hk, ← hacc2]
          exact List.mem_cons_self _ _
        · rw [if_neg hk] at hacc2
          exact Or.inr hacc2

theorem dictLookup_mem {l : List (Nat × List Bool)} {k : Nat} {v : List Bool}
    (h : dictLookup l k = some v) : (k, v) ∈ l := by
  rcases dictLookup_foldl_mem l none h with hm | hacc
  · exact hm
  · exact absurd hacc (by simp)

theorem dictLookup_foldl_isSome : ∀ (l : List (Nat × List Bool)) (acc : Option (List Bool))
    (k : Nat),
    (l.foldl (fun acc p => if p.1 = k then some p.2 else acc) acc).isSome =
      (k ∈ l.map Prod.fst ∨ acc.isSome = true : Prop) := by
  intro l
  induction l with
  | nil => intro acc k; simp
  | cons p l ih =>
      intro acc k
      rw [List.foldl_cons, ih]
      by_cases hk : p.1 = k
      · simp [hk]
      · simp only [if_neg hk, List.map_cons, List.mem_cons]
        have : ¬k = p.1 := fun h => hk h.symm
        simp [this]

theorem dictLookup_isSome {l : List (Nat × List Bool)} {k : Nat} :
    (dictLookup l k).isSome ↔ k ∈ l.map Prod.fst := by
  unfold dictLookup
  rw [dictLookup_foldl_isSome]
  simp

theorem encodePayload_isSome : ∀ (data : List Nat) {cs : List (Nat × List Bool)},
    (∀ b ∈ data, b ∈ cs.map Prod.fst) → ∃ p, encodePayload cs data = some p := by
  intro data
  induction data with
  | nil => intro cs _; exact ⟨[], rfl⟩
  | cons b bs ih =>
      intro cs h
      have hb : (dictLookup cs b).isSome := dictLookup_isSome.mpr (h b (by simp))
      obtain ⟨c, hc⟩ := Option.isSome_iff_exists.mp hb
      obtain ⟨p, hp⟩ := ih (fun x hx => h x (by simp [hx]))
      exact ⟨c ++ p, by simp [encodePayload, hc, hp]⟩

theorem encodePayload_eq_none : ∀ (data : List Nat) (cs : List (Nat × List Bool)),
    encodePayload cs data = none ↔ ∃ b ∈ data, b ∉ cs.map Prod.fst := by
  intro data
  induction data with
  | nil => intro cs; simp [encodePayload]
  | cons b bs ih =>
      intro cs
      constructor
      · intro h
        simp only [encodePayload] at h
        cases hc : dictLookup cs b with
        | none =>
            refine ⟨b, by simp, ?_⟩
            intro hmem
            have := dictLookup_isSome.mpr hmem
            rw [hc] at this
            simp at this
        | some c =>
            rw [hc] at h
            cases hp : encodePayload cs bs with
            | none =>
                obtain ⟨x, hx, hxn⟩ := (ih cs).mp hp
                exact ⟨x, by simp [hx], hxn⟩
            | some p => rw [hp] at h; simp at h
      · rintro ⟨x, hx, hxn⟩
        rcases List.mem_cons.mp hx with rfl | hx
        · have : dictLookup cs x = none := by
            cases hc : dictLookup cs x with
            | none => rfl
            | some c =>
                exact absurd (dictLookup_isSome.mp (by simp [hc])) hxn
          simp [encodePayload, this]
        · have : encodePayload cs bs = none := (ih cs).mpr ⟨x, hx, hxn⟩
          simp only [encodePayload, this]
          cases dictLookup cs b <;> rfl

theorem decodeLoop_encode : ∀ (d : List Nat) {t : HTree} {payload p : List Bool}
    (acc : List Nat) (fuel : Nat),
    pathCoded t → encodePayload t.codes d = some payload → treeRead t p = none →
    (payload ++ p).length < fuel →
    decodeLoop fuel t (payload ++ p) acc = some (acc ++ d) := by
  intro d
  induction d with
  | nil =>
      intro t payload p acc fuel hpc henc hstop hfuel
      simp only [encodePayload, Option.some.injEq] at henc
      subst henc
      cases fuel with
      | zero => simp at hfuel
      | succ f => simp [decodeLoop, hstop]
  | cons b bs ih =>
      intro t payload p acc fuel hpc henc hstop hfuel
      simp only [encodePayload] at henc
      cases hc : dictLookup t.codes b with
      | none => rw [hc] at henc; simp at henc
      | some c =>
          rw [hc] at henc
          cases hp : encodePayload t.codes bs with
          | none => rw [hp] at henc; simp at henc
          | some rest =>
              rw [hp] at henc
              simp only [Option.some.injEq] at henc
              subst henc
              have hmem : (b, c) ∈ pathCodes t [] := by
                rw [← hpc]
                exact dictLookup_mem hc
              cases t with
              | leaf s0 w c0 => simp [treeRead] at hstop
              | node w sy l r =>
                  have hcne : c ≠ [] := pathCodes_node_ne_nil hmem
                  cases fuel with
                  | zero => simp at hfuel
                  | succ f =>
                      have hread := treeRead_pathCodes _ hmem (rest ++ p)
                      simp only [List.append_assoc, decodeLoop, hread]
                      have hlen : (rest ++ p).length < f := by
                        have hc1 : 1 ≤ c.length := by
                          cases c with
                          | nil => exact absurd rfl hcne
                          | cons _ _ => simp
                        simp only [List.length_append] at hfuel ⊢
                        omega
                      have := ih (acc ++ [b]) f hpc hp hstop hlen
                      rw [this]
                      simp

/-! ### Heap and build-loop lemmas -/

theorem popMin_ne_none (t : HTree) (l : List HTree) : popMin (t :: l) ≠ none := by
  cases h : popMin l with
  | none => simp [popMin, h]
  | some p =>
      obtain ⟨m, rest⟩ := p
      simp only [popMin, h]
      split <;> simp

theorem popMin_perm : ∀ {l : List HTree} {t : HTree} {rest : List HTree},
    popMin l = some (t, rest) → (t :: rest).Perm l := by
  intro l
  induction l with
  | nil => intro t rest h; simp [popMin] at h
  | cons a l ih =>
      intro t rest h
      cases hp : popMin l with
      | none =>
          have hl : l = [] := by
            cases l with
            | nil => rfl
            | cons b l2 => exact absurd hp (popMin_ne_none b l2)
          subst hl
          simp only [popMin, Option.some.injEq, Prod.mk.injEq] at h
          rw [← h.1, ← h.2]
      | some p =>
          obtain ⟨m, mrest⟩ := p
          have ihp := ih hp
          simp only [popMin, hp] at h
          split at h
          · simp only [Option.some.injEq, Prod.mk.injEq] at h
            rw [← h.1, ← h.2]
            exact (List.Perm.swap a m mrest).trans (ihp.cons a)
          · simp only [Option.some.injEq, Prod.mk.injEq] at h
            rw [← h.1, ← h.2]
            exact ihp.cons a

theorem popMin_length {l : List HTree} {t : HTree} {rest : List HTree}
    (h : popMin l = some (t, rest)) : rest.length + 1 = l.length := by
  have := (popMin_perm h).length_eq
  simpa using this

theorem popMin_mem {l : List HTree} {t : HTree} {rest : List HTree}
    (h : popMin l = some (t, rest)) : t ∈ l :=
  (popMin_perm h).mem_iff.mp (by simp)

theorem popMin_subset {l : List HTree} {t : HTree} {rest : List HTree}
    (h : popMin l = some (t, rest)) : ∀ u ∈ rest, u ∈ l :=
  fun u hu => (popMin_perm h).mem_iff.mp (by simp [hu])

theorem buildLoop_some : ∀ (fuel : Nat) (heap : List HTree), heap ≠ [] →
    heap.length ≤ fuel + 1 → ∃ t, buildLoop fuel heap = some t := by
  intro fuel
  induction fuel with
  | zero =>
      intro heap hne hlen
      cases heap with
      | nil => exact absurd rfl hne
      | cons a l =>
          cases l with
          | nil => exact ⟨a, rfl⟩
          | cons b l2 => simp at hlen
  | succ f ih =>
      intro heap hne hlen
      cases heap with
      | nil => exact absurd rfl hne
      | cons a l =>
          cases l with
          | nil => exact ⟨a, rfl⟩
          | cons b l2 =>
              cases h1 : popMin (a :: b :: l2) with
              | none => exact absurd h1 (popMin_ne_none _ _)
              | some p1 =>
                  obtain ⟨first, heap1⟩ := p1
                  have hl1 := popMin_length h1
                  cases heap1 with
                  | nil => simp at hl1
                  | cons c h1rest =>
                      cases h2 : popMin (c :: h1rest) with
                      | none => exact absurd h2 (popMin_ne_none _ _)
                      | some p2 =>
                          obtain ⟨second, heap2⟩ := p2
                          have hl2 := popMin_length h2
                          obtain ⟨t, ht⟩ := ih (mergeNodes first second :: heap2) (by simp)
                            (by simp at hl1 hl2 hlen ⊢; omega)
                          exact ⟨t, by simp [buildLoop, h1, h2, ht]⟩

theorem buildLoop_pathCoded : ∀ (fuel : Nat) (heap : List HTree) {root : HTree},
    (∀ t ∈ heap, pathCoded t) → buildLoop fuel heap = some root → pathCoded root := by
  intro fuel
  induction fuel with
  | zero =>
      intro heap root hall h
      cases heap with
      | nil => simp [buildLoop] at h
      | cons a l =>
          cases l with
          | nil =>
              simp only [buildLoop, Option.some.injEq] at h
              rw [← h]
              exact hall a (by simp)
          | cons b l2 => simp [buildLoop] at h
  | succ f ih =>
      intro heap root hall h
      cases heap with
      | nil => simp [buildLoop] at h
      | cons a l =>
          cases l with
          | nil =>
              simp only [buildLoop, Option.some.injEq] at h
              rw [← h]
              exact hall a (by simp)
          | cons b l2 =>
              simp only [buildLoop] at h
              split at h
              · exact absurd h (by simp)
              · rename_i first heap1 h1
                split at h
                · exact absurd h (by simp)
                · rename_i second heap2 h2
                  apply ih (mergeNodes first second :: heap2) _ h
                  intro t ht
                  rcases List.mem_cons.mp ht with rfl | ht
                  · exact pathCoded_merge
                      (hall first (popMin_mem h1))
                      (hall second (popMin_subset h1 second (popMin_mem h2)))
                  · exact hall t (popMin_subset h1 t (popMin_subset h2 t ht))

theorem keys_mergeNodes (f s : HTree) :
    (mergeNodes f s).codes.map Prod.fst = f.codes.map Prod.fst ++ s.codes.map Prod.fst := by
  simp [mergeNodes, codes, codes_addToCode, List.map_map, Function.comp_def]

theorem buildLoop_keys : ∀ (fuel : Nat) (heap : List HTree) {root : HTree},
    buildLoop fuel heap = some root → ∀ x : Nat,
    (x ∈ root.codes.map Prod.fst ↔ ∃ u ∈ heap, x ∈ u.codes.map Prod.fst) := by
  intro fuel
  induction fuel with
  | zero =>
      intro heap root h x
      cases heap with
      | nil => simp [buildLoop] at h
      | cons a l =>
          cases l with
          | nil =>
              simp only [buildLoop, Option.some.injEq] at h
              rw [← h]
              simp
          | cons b l2 => simp [buildLoop] at h
  | succ f ih =>
      intro heap root h x
      cases heap with
      | nil => simp [buildLoop] at h
      | cons a l =>
          cases l with
          | nil =>
              simp only [buildLoop, Option.some.injEq] at h
              rw [← h]
              simp
          | cons b l2 =>
              simp only [buildLoop] at h
              split at h
              · exact absurd h (by simp)
              · rename_i first heap1 h1
                split at h
                · exact absurd h (by simp)
                · rename_i second heap2 h2
                  rw [ih _ h x]
                  have hperm : (first :: second :: heap2).Perm (a :: b :: l2) := by
                    have p1 := popMin_perm h1
                    have p2 := popMin_perm h2
                    exact ((p2.cons first).trans p1)
                  constructor
                  · rintro ⟨u, hu, hx⟩
                    rcases List.mem_cons.mp hu with rfl | hu
                    · rw [keys_mergeNodes, List.mem_append] at hx
                      rcases hx with hx | hx
                      · exact ⟨first, hperm.mem_iff.mp (by simp), hx⟩
                      · exact ⟨second, hperm.mem_iff.mp (by simp), hx⟩
                    · exact ⟨u, hperm.mem_iff.mp (by simp [hu]), hx⟩
                  · rintro ⟨u, hu, hx⟩
                    rcases List.mem_cons.mp (hperm.mem_iff.mpr hu) with rfl | hu2
                    · exact ⟨mergeNodes u second, by simp, by
                        rw [keys_mergeNodes, List.mem_append]; exact Or.inl hx⟩
                    · rcases List.mem_cons.mp hu2 with rfl | hu3
                      · exact ⟨mergeNodes first u, by simp, by
                          rw [keys_mergeNodes, List.mem_append]; exact Or.inr hx⟩
                      · exact ⟨u, by simp [hu3], hx⟩

/-! ### Frequency-count lemmas -/

theorem bumpCount_keys (acc : List (Nat × Nat)) (b x : Nat) :
    (x ∈ (bumpCount acc b).map Prod.fst ↔ x ∈ acc.map Prod.fst ∨ x = b) := by
  unfold bumpCount
  split
  · rename_i hany
    have hb : b ∈ acc.map Prod.fst := by
      rw [List.any_eq_true] at hany
      obtain ⟨p, hp, hpb⟩ := hany
      simp only [decide_eq_true_eq] at hpb
      exact List.mem_map.mpr ⟨p, hp, hpb⟩
    have hkeys : (acc.map (fun p => if p.1 = b then (p.1, p.2 + 1) else p)).map Prod.fst =
        acc.map Prod.fst := by
      rw [List.map_map]
      apply List.map_congr_left
      intro p _
      simp only [Function.comp_apply]
      split <;> rfl
    rw [hkeys]
    constructor
    · exact Or.inl
    · rintro (hx | rfl)
      · exact hx
      · exact hb
  · simp

theorem counter_keys (data : List Nat) (x : Nat) :
    (x ∈ (counter data).map Prod.fst ↔ x ∈ data) := by
  suffices h : ∀ acc, (x ∈ ((data.foldl bumpCount acc).map Prod.fst) ↔
      x ∈ acc.map Prod.fst ∨ x ∈ data) by
    simpa [counter] using h []
  induction data with
  | nil => intro acc; simp
  | cons b bs ih =>
      intro acc
      rw [List.foldl_cons, ih (bumpCount acc b)]
      rw [bumpCount_keys]
      simp only [List.mem_cons]
      tauto

theorem counter_ne_nil {data : List Nat} (h : data ≠ []) : counter data ≠ [] := by
  cases data with
  | nil => exact absurd rfl h
  | cons b bs =>
      intro hc
      have := (counter_keys (b :: bs) b).mpr (by simp)
      rw [hc] at this
      simp at this

/-! ### Build- and compress-level lemmas -/

theorem buildTree_pathCoded {data : List Nat} {w : Option (List (Nat × Nat))} {root : HTree}
    (h : buildTree data w = some root) : pathCoded root := by
  apply buildLoop_pathCoded _ _ _ h
  intro t ht
  obtain ⟨p, _, rfl⟩ := List.mem_map.mp ht
  rfl

theorem buildTree_keys {data : List Nat} {w : Option (List (Nat × Nat))} {root : HTree}
    (h : buildTree data w = some root) (x : Nat) :
    (x ∈ root.codes.map Prod.fst ↔ x ∈ (effectiveWeights data w).map Prod.fst) := by
  rw [buildLoop_keys _ _ h x]
  constructor
  · rintro ⟨u, hu, hx⟩
    obtain ⟨p, hp, rfl⟩ := List.mem_map.mp hu
    simp only [codes, List.map_cons, List.map_nil, List.mem_singleton] at hx
    rw [hx]
    exact List.mem_map.mpr ⟨p, hp, rfl⟩
  · intro hx
    obtain ⟨p, hp, rfl⟩ := List.mem_map.mp hx
    exact ⟨HTree.leaf p.1 p.2 [], List.mem_map.mpr ⟨p, hp, rfl⟩, by simp [codes]⟩

theorem buildTree_some {data : List Nat} {w : Option (List (Nat × Nat))}
    (h : effectiveWeights data w ≠ []) : ∃ t, buildTree data w = some t := by
  unfold buildTree
  rcases hw : effectiveWeights data w with _ | ⟨p, ps⟩
  · exact absurd hw h
  · apply buildLoop_some
    · simp
    · simp

theorem buildTree_eq_none {data : List Nat} {w : Option (List (Nat × Nat))} :
    buildTree data w = none ↔ effectiveWeights data w = [] := by
  constructor
  · intro h
    by_contra hne
    obtain ⟨t, ht⟩ := buildTree_some hne
    rw [ht] at h
    simp at h
  · intro h
    unfold buildTree
    rw [h]
    rfl

theorem buildTree_symOk {data : List Nat} {w : Option (List (Nat × Nat))} {root : HTree}
    (h : buildTree data w = some root)
    (hk : ∀ x ∈ (effectiveWeights data w).map Prod.fst, x < 256) : symOk root := by
  rw [symOk_iff]
  intro x hx
  exact hk x ((buildTree_keys h x).mp hx)

theorem buildTree_node {data : List Nat} {w : Option (List (Nat × Nat))} {root : HTree}
    (h : buildTree data w = some root) {x y : Nat}
    (hx : x ∈ root.codes.map Prod.fst) (hy : y ∈ root.codes.map Prod.fst) (hxy : x ≠ y) :
    ∃ wt sy l r, root = HTree.node wt sy l r := by
  cases root with
  | leaf s0 w0 c0 =>
      exfalso
      simp only [codes, List.map_cons, List.map_nil, List.mem_singleton] at hx hy
      exact hxy (hx.trans hy.symm)
  | node wt sy l r => exact ⟨wt, sy, l, r, rfl⟩

theorem compress_eq {data : List Nat} {w : Option (List (Nat × Nat))} {tree : HTree}
    {payload : List Bool} (ht : buildTree data w = some tree)
    (hp : encodePayload tree.codes data = some payload) :
    compress data w = some (bitsToBytes
      (List.replicate (8 - (tree.serialize ++ payload).length % 8 - 1) false
        ++ true :: (tree.serialize ++ payload))) := by
  unfold compress
  simp only [ht, hp]
  have hlt : (tree.serialize ++ payload).length % 8 < 8 := Nat.mod_lt _ (by norm_num)
  have hne : ¬(8 - (tree.serialize ++ payload).length % 8 = 0) := by omega
  simp only [hne, if_false, List.append_assoc, List.singleton_append]

theorem padded_length_mod (body : List Bool) :
    (List.replicate (8 - body.length % 8 - 1) false ++ true :: body).length % 8 = 0 := by
  simp only [List.length_append, List.length_replicate, List.length_cons]
  have : body.length % 8 < 8 := Nat.mod_lt _ (by norm_num)
  omega

/-- Two root-to-leaf path codes of one tree where one is an initial
segment of the other can only come from the same leaf, hence carry the
same symbol. -/
theorem pathCodes_no_initial_segment : ∀ (t : HTree) (p : List Bool) {a b : Nat}
    {ca cb : List Bool}, (a, ca) ∈ pathCodes t p → (b, cb) ∈ pathCodes t p →
    (∃ s, ca ++ s = cb) → a = b := by
  intro t
  induction t with
  | leaf s0 w0 c0 =>
      intro p a b ca cb ha hb _
      simp only [pathCodes, List.mem_singleton, Prod.mk.injEq] at ha hb
      rw [ha.1, hb.1]
  | node w0 sy l r ihl ihr =>
      intro p a b ca cb ha hb hseg
      simp only [pathCodes, List.mem_append] at ha hb
      rcases ha with ha | ha <;> rcases hb with hb | hb
      · exact ihl (p ++ [true]) ha hb hseg
      · exfalso
        rw [pathCodes_shift] at ha hb
        obtain ⟨qa, _, hqa1, hqa2⟩ := by
          simpa only [List.mem_map, Prod.mk.injEq] using ha
        obtain ⟨qb, _, hqb1, hqb2⟩ := by
          simpa only [List.mem_map, Prod.mk.injEq] using hb
        obtain ⟨s, hs⟩ := hseg
        rw [← hqa2, ← hqb2] at hs
        simp only [List.append_assoc, List.cons_append, List.nil_append] at hs
        have := List.append_cancel_left hs
        simp at this
      · exfalso
        rw [pathCodes_shift] at ha hb
        obtain ⟨qa, _, hqa1, hqa2⟩ := by
          simpa only [List.mem_map, Prod.mk.injEq] using ha
        obtain ⟨qb, _, hqb1, hqb2⟩ := by
          simpa only [List.mem_map, Prod.mk.injEq] using hb
        obtain ⟨s, hs⟩ := hseg
        rw [← hqa2, ← hqb2] at hs
        simp only [List.append_assoc, List.cons_append, List.nil_append] at hs
        have := List.append_cancel_left hs
        simp at this
      · exact ihr (p ++ [false]) ha hb hseg

/-! ### Claim theorems -/

/-- C1, counterexample: for the single-distinct-symbol input `b"a"`
(`[97]`), `compress` succeeds with the two bytes `0x03 0x61`, but
`decompress` of that output does not return `b"a"`: its payload loop makes
no progress on the single-leaf tree (`tree.read` consumes no bits), so the
loop never terminates — `decompress` returns `none`, the model's rendering
of a non-terminating run (see `decodeLoop_leaf`: no amount of fuel ends
the loop). -/
theorem c1_single_symbol_counterexample :
    compress [97] none = some [3, 97] ∧
      decompress [3, 97] = none ∧
      decompress [3, 97] ≠ some (DOut.ok [97]) := by
  refine ⟨by decide, by decide, by decide⟩

/-- C1 (amended): for every byte sequence `d` containing at least two
distinct byte values, `decompress (compress d)` returns exactly `d`
(non-emptiness follows).  The original claim over all non-empty `d` fails
on single-distinct-symbol inputs, where the decoder's payload loop never
terminates. -/
theorem c1_roundtrip_amended (d : List Nat) (hbytes : ∀ x ∈ d, x < 256)
    (a b : Nat) (ha : a ∈ d) (hb : b ∈ d) (hab : a ≠ b) :
    ∃ out, compress d none = some out ∧ decompress out = some (DOut.ok d) := by
  have hcne : effectiveWeights d none ≠ [] := by
    show counter d ≠ []
    apply counter_ne_nil
    rintro rfl
    simp at ha
  obtain ⟨tree, ht⟩ := buildTree_some hcne
  have hkeys : ∀ x, (x ∈ tree.codes.map Prod.fst ↔ x ∈ d) := by
    intro x
    rw [buildTree_keys ht x]
    exact counter_keys d x
  obtain ⟨payload, hp⟩ := encodePayload_isSome d (fun x hx => (hkeys x).mpr hx)
  have hpc : pathCoded tree := buildTree_pathCoded ht
  have hsym : symOk tree := buildTree_symOk ht (fun x hx => hbytes x ((counter_keys d x).mp hx))
  obtain ⟨wt, sy, l, r, hnode⟩ := buildTree_node ht ((hkeys a).mpr ha) ((hkeys b).mpr hb) hab
  have hcomp := compress_eq ht hp
  refine ⟨_, hcomp, ?_⟩
  have hmod := padded_length_mod (tree.serialize ++ payload)
  have hbits := bytesToBits_bitsToBytes _ hmod
  have h8 := bitsToBytes_length _ hmod
  unfold decompress decompressFuel
  simp only [hbits, skipPadding_marker, deserialize_serialize tree payload hsym]
  have hrec_pc : pathCoded (tree.reconstruct []) := by
    unfold pathCoded
    rw [codes_reconstruct, pathCodes_reconstruct]
  have henc2 : encodePayload (tree.reconstruct []).codes d = some payload := by
    rw [codes_reconstruct, ← hpc]
    exact hp
  have hstop : treeRead (tree.reconstruct []) [] = none := by
    rw [hnode]
    rfl
  have hfuel : (payload ++ []).length <
      8 * (bitsToBytes (List.replicate (8 - (tree.serialize ++ payload).length % 8 - 1) false
        ++ true :: (tree.serialize ++ payload))).length + 1 := by
    rw [h8]
    simp only [List.append_nil, List.length_append, List.length_cons, List.length_replicate]
    omega
  have hdec := decodeLoop_encode d [] _ hrec_pc henc2 hstop hfuel
  rw [List.append_nil] at hdec
  rw [hdec]
  simp

/-- C1, witness for the amended round-trip at `d = [49, 50]`. -/
theorem c1_roundtrip_amended_witness :
    ∃ out, compress [49, 50] none = some out ∧ decompress out = some (DOut.ok [49, 50]) :=
  c1_roundtrip_amended [49, 50] (by decide) 49 50 (by decide) (by decide) (by decide)

/-- C2: on `b"122333"` (`[49, 50, 50, 51, 51, 51]`) with counted weights,
the built table maps byte 49 to `11`, byte 50 to `10` and byte 51 to `0`;
`compress` returns exactly `0x49 0x8c 0xca 0x67 0xd0`; and `decompress` of
those bytes returns the original input. -/
theorem c2_simple_vector :
    ((buildTree [49, 50, 50, 51, 51, 51] none).map
        (fun t => (dictLookup t.codes 49, dictLookup t.codes 50, dictLookup t.codes 51))
      = some (some [true, true], some [true, false], some [false])) ∧
    compress [49, 50, 50, 51, 51, 51] none = some [0x49, 0x8c, 0xca, 0x67, 0xd0] ∧
    decompress [0x49, 0x8c, 0xca, 0x67, 0xd0] = some (DOut.ok [49, 50, 50, 51, 51, 51]) :=
  ⟨by decide, by decide, by decide⟩

/-- C3: for every weight mapping (distinct keys) with at least two
symbols, any two entries of the built tree's code table with distinct
symbols are such that neither code is an initial bit-segment of the
other. -/
theorem c3_prefix_free (w : List (Nat × Nat)) (hnd : (w.map Prod.fst).Nodup)
    (h2 : 2 ≤ w.length) (data : List Nat) (t : HTree)
    (ht : buildTree data (some w) = some t) (a b : Nat) (ca cb : List Bool)
    (ha : (a, ca) ∈ t.codes) (hb : (b, cb) ∈ t.codes) (hab : a ≠ b) :
    ¬ ∃ s, ca ++ s = cb := by
  intro hseg
  have hpc := buildTree_pathCoded ht
  rw [hpc] at ha hb
  exact hab (pathCodes_no_initial_segment t [] ha hb hseg)

/-- C3, witness: the spec's weighted example `{49: 1, 50: 1, 51: 4}`,
where the codes of 49 (`11`) and 50 (`10`) are not initial segments of
each other. -/
theorem c3_prefix_free_witness : ¬ ∃ s, [true, true] ++ s = [true, false] :=
  c3_prefix_free [(49, 1), (50, 1), (51, 4)] (by decide) (by decide) []
    (HTree.node 6 49
      (HTree.node 2 49 (HTree.leaf 49 1 [true, true]) (HTree.leaf 50 1 [true, false]))
      (HTree.leaf 51 4 [false]))
    (by decide) 49 50 [true, true] [true, false] (by decide) (by decide) (by decide)

/-- C4: for every tree the builder produces (over byte-valued symbols),
deserializing its serialization — with any trailing bits after it — yields
a tree with an identical code table and leaves the remaining stream
exactly at those trailing bits. -/
theorem c4_serialize_roundtrip (data : List Nat) (w : Option (List (Nat × Nat))) (t : HTree)
    (ht : buildTree data w = some t)
    (hk : ∀ x ∈ (effectiveWeights data w).map Prod.fst, x < 256)
    (extra : List Bool) :
    ∃ t2, HTree.deserialize (t.serialize ++ extra) = some (t2, extra) ∧ t2.codes = t.codes := by
  have hsym := buildTree_symOk ht hk
  refine ⟨t.reconstruct [], deserialize_serialize t extra hsym, ?_⟩
  rw [codes_reconstruct]
  exact (buildTree_pathCoded ht).symm

/-- C4, witness: the two-symbol tree built from `[49, 50]`, followed by
two trailing bits. -/
theorem c4_serialize_roundtrip_witness :
    ∃ t2, HTree.deserialize
        ((HTree.node 2 49 (HTree.leaf 49 1 [true]) (HTree.leaf 50 1 [false])).serialize
          ++ [true, false]) = some (t2, [true, false]) ∧
      t2.codes = (HTree.node 2 49 (HTree.leaf 49 1 [true]) (HTree.leaf 50 1 [false])).codes :=
  c4_serialize_roundtrip [49, 50] none
    (HTree.node 2 49 (HTree.leaf 49 1 [true]) (HTree.leaf 50 1 [false]))
    (by decide) (by decide) [true, false]

/-- C5: whenever `compress` succeeds, with `body` the tree-plus-payload
bits, `padBits = 8 - body.length % 8` (which is never `0`, so the
substitute-8 branch fires exactly by already being `8` when the body is
aligned): `padBits` lies in `1..8`, an aligned body gets the full 8-bit
padding byte, the output is the byte packing of `(padBits - 1)` zeros, a
`1`, then `body`, its bit length `8 * |out|` equals `padBits + |body|`
(a multiple of 8, with no extra trailing pad), and the decoder's
leading-zero scan recovers exactly the tree/payload boundary `body`. -/
theorem c5_padding (data : List Nat) (w : Option (List (Nat × Nat))) (tree : HTree)
    (payload body : List Bool) (padBits : Nat)
    (ht : buildTree data w = some tree)
    (hp : encodePayload tree.codes data = some payload)
    (hb : body = tree.serialize ++ payload)
    (hpb : padBits = 8 - body.length % 8) :
    (1 ≤ padBits ∧ padBits ≤ 8) ∧
    (body.length % 8 = 0 → padBits = 8) ∧
    compress data w = some (bitsToBytes (List.replicate (padBits - 1) false ++ true :: body)) ∧
    8 * (bitsToBytes (List.replicate (padBits - 1) false ++ true :: body)).length
      = padBits + body.length ∧
    (padBits + body.length) % 8 = 0 ∧
    skipPadding (bytesToBits (bitsToBytes (List.replicate (padBits - 1) false ++ true :: body)))
      = some body := by
  subst hb hpb
  have hlt : (tree.serialize ++ payload).length % 8 < 8 := Nat.mod_lt _ (by norm_num)
  refine ⟨⟨by omega, by omega⟩, by omega, compress_eq ht hp, ?_, by omega, ?_⟩
  · rw [bitsToBytes_length _ (padded_length_mod _)]
    simp only [List.length_append, List.length_cons, List.length_replicate]
    omega
  · rw [bytesToBits_bitsToBytes _ (padded_length_mod _), skipPadding_marker]

/-- C5, witness at `data = [49, 50]` with counted weights (body length 21,
`padBits = 3`). -/
theorem c5_padding_witness :
    ((1 ≤ 3 ∧ 3 ≤ 8) ∧
    (((HTree.node 2 49 (HTree.leaf 49 1 [true]) (HTree.leaf 50 1 [false])).serialize
        ++ [true, false]).length % 8 = 0 → 3 = 8) ∧
    compress [49, 50] none = some (bitsToBytes (List.replicate 2 false ++ true ::
      ((HTree.node 2 49 (HTree.leaf 49 1 [true]) (HTree.leaf 50 1 [false])).serialize
        ++ [true, false]))) ∧
    8 * (bitsToBytes (List.replicate 2 false ++ true ::
      ((HTree.node 2 49 (HTree.leaf 49 1 [true]) (HTree.leaf 50 1 [false])).serialize
        ++ [true, false]))).length
      = 3 + ((HTree.node 2 49 (HTree.leaf 49 1 [true]) (HTree.leaf 50 1 [false])).serialize
        ++ [true, false]).length ∧
    (3 + ((HTree.node 2 49 (HTree.leaf 49 1 [true]) (HTree.leaf 50 1 [false])).serialize
        ++ [true, false]).length) % 8 = 0 ∧
    skipPadding (bytesToBits (bitsToBytes (List.replicate 2 false ++ true ::
      ((HTree.node 2 49 (HTree.leaf 49 1 [true]) (HTree.leaf 50 1 [false])).serialize
        ++ [true, false]))))
      = some ((HTree.node 2 49 (HTree.leaf 49 1 [true]) (HTree.leaf 50 1 [false])).serialize
        ++ [true, false])) :=
  c5_padding [49, 50] none
    (HTree.node 2 49 (HTree.leaf 49 1 [true]) (HTree.leaf 50 1 [false]))
    [true, false] _ 3 (by decide) (by decide) rfl (by decide)

/-- C6: `compress` fails exactly when the effective weight mapping is
empty or some data byte is missing from the code table; the effective
mapping is empty exactly when `data` is empty with no caller weights or
the caller's mapping is empty; and with default (counted) weights every
data byte is in the table, so the missing-byte failure needs
caller-supplied weights.  (The byte-domain hypotheses restrict symbols to
`0..255` as the source's `bytes`/8-bit serialization does.) -/
theorem c6_compress_failure_iff (data : List Nat) (w : Option (List (Nat × Nat)))
    (hd : ∀ x ∈ data, x < 256)
    (hw : ∀ ws, w = some ws → ∀ x ∈ ws.map Prod.fst, x < 256) :
    (compress data w = none ↔
      effectiveWeights data w = [] ∨
        ∃ x ∈ data, x ∉ (effectiveWeights data w).map Prod.fst) ∧
    (effectiveWeights data w = [] ↔ (data = [] ∧ w = none) ∨ w = some []) ∧
    (w = none → ∀ x ∈ data, x ∈ (effectiveWeights data w).map Prod.fst) := by
  refine ⟨⟨?_, ?_⟩, ?_, ?_⟩
  · intro h
    cases hbt : buildTree data w with
    | none => exact Or.inl (buildTree_eq_none.mp hbt)
    | some t =>
        right
        unfold compress at h
        simp only [hbt] at h
        cases hep : encodePayload t.codes data with
        | some p => rw [hep] at h; simp at h
        | none =>
            obtain ⟨x, hx, hxn⟩ := (encodePayload_eq_none data t.codes).mp hep
            exact ⟨x, hx, fun hm => hxn ((buildTree_keys hbt x).mpr hm)⟩
  · intro h
    rcases h with h | ⟨x, hx, hxn⟩
    · unfold compress
      rw [buildTree_eq_none.mpr h]
    · cases hbt : buildTree data w with
      | none => unfold compress; rw [hbt]
      | some t =>
          have hep : encodePayload t.codes data = none :=
            (encodePayload_eq_none data t.codes).mpr
              ⟨x, hx, fun hm => hxn ((buildTree_keys hbt x).mp hm)⟩
          unfold compress
          rw [hbt]
          simp only [hep]
  · cases w with
    | none =>
        constructor
        · intro h
          refine Or.inl ⟨?_, rfl⟩
          by_contra hne
          exact counter_ne_nil hne h
        · rintro (⟨rfl, _⟩ | h)
          · rfl
          · exact Option.noConfusion h
    | some ws =>
        constructor
        · intro h
          right
          rw [show effectiveWeights data (some ws) = ws from rfl] at h
          rw [h]
        · rintro (⟨_, h⟩ | h)
          · exact Option.noConfusion h
          · exact Option.some.inj h
  · rintro rfl x hx
    exact (counter_keys data x).mpr hx

/-- C6, witness at `data = [49]`, default weights (no failure case). -/
theorem c6_compress_failure_iff_witness :
    (compress [49] none = none ↔
      effectiveWeights [49] none = [] ∨
        ∃ x ∈ ([49] : List Nat), x ∉ (effectiveWeights [49] none).map Prod.fst) ∧
    (effectiveWeights [49] none = [] ↔ (([49] : List Nat) = [] ∧
      (none : Option (List (Nat × Nat))) = none) ∨
      (none : Option (List (Nat × Nat))) = some []) ∧
    ((none : Option (List (Nat × Nat))) = none →
      ∀ x ∈ ([49] : List Nat), x ∈ (effectiveWeights [49] none).map Prod.fst) :=
  c6_compress_failure_iff [49] none (by decide) (by intro ws h; cases h)

/-- C7: a stream exhaustion while deserializing the tree surfaces to
`decompress`'s caller (the model's `treeError`), for any payload fuel;
whereas a payload-loop exhaustion is normal termination: decoding a fully
encoded `d` followed by an incomplete tail `p` (a descent from the root
that exhausts before any leaf) returns exactly the accumulated `d`, the
partial final symbol silently discarded. -/
theorem c7_exhaustion_phases :
    (∀ (fuel : Nat) (data : List Nat) (rest : List Bool),
      skipPadding (bytesToBits data) = some rest → HTree.deserialize rest = none →
      decompressFuel fuel data = some DOut.treeError) ∧
    (∀ (fuel : Nat) (t : HTree) (d : List Nat) (payload p : List Bool),
      pathCoded t → encodePayload t.codes d = some payload → treeRead t p = none →
      (payload ++ p).length < fuel →
      decodeLoop fuel t (payload ++ p) [] = some d) := by
  constructor
  · intro fuel data rest h1 h2
    unfold decompressFuel
    simp only [h1, h2]
  · intro fuel t d payload p hpc hep hstop hfuel
    simpa using decodeLoop_encode d [] fuel hpc hep hstop hfuel

/-- C7, witness: the one-byte stream `0x01` exhausts inside the tree
(surfaced); and over the three-leaf tree of `b"122333"`, the payload
`code(49) ++ [true]` decodes to `[49]` with the trailing lone `true`
(an incomplete descent) discarded. -/
theorem c7_exhaustion_phases_witness :
    decompressFuel 9 [1] = some DOut.treeError ∧
    decodeLoop 4
      (HTree.node 6 49
        (HTree.node 2 49 (HTree.leaf 49 1 [true, true]) (HTree.leaf 50 1 [true, false]))
        (HTree.leaf 51 4 [false]))
      ([true, true] ++ [true]) [] = some [49] :=
  ⟨c7_exhaustion_phases.1 9 [1] [] (by decide) (by decide),
   c7_exhaustion_phases.2 4
    (HTree.node 6 49
      (HTree.node 2 49 (HTree.leaf 49 1 [true, true]) (HTree.leaf 50 1 [true, false]))
      (HTree.leaf 51 4 [false]))
    [49] [true, true] [true] (by rfl) (by decide) (by decide) (by decide)⟩

/-- C8: for a weight mapping with exactly one symbol `s`, the builder
returns the single leaf itself with a zero-length code (the merge loop
body never runs), the payload of any run of `s`-bytes is zero bits, and
`compress` output is exactly the packed padding marker (seven bits here)
plus the nine-bit serialized one-leaf tree. -/
theorem c8_single_symbol (s n k : Nat) (hs : s < 256) :
    buildTree (List.replicate k s) (some [(s, n)]) = some (HTree.leaf s n []) ∧
    encodePayload (HTree.leaf s n []).codes (List.replicate k s) = some [] ∧
    compress (List.replicate k s) (some [(s, n)]) =
      some (bitsToBytes (List.replicate 6 false ++ true ::
        (HTree.serialize (HTree.leaf s n [])))) := by
  have hepAll : ∀ m : Nat,
      encodePayload (HTree.leaf s n []).codes (List.replicate m s) = some [] := by
    intro m
    induction m with
    | zero => rfl
    | succ m ih =>
        rw [List.replicate_succ]
        have hd : dictLookup (HTree.leaf s n []).codes s = some [] := by
          simp [dictLookup, codes]
        simp [encodePayload, hd, ih]
  have hbt : buildTree (List.replicate k s) (some [(s, n)]) = some (HTree.leaf s n []) := rfl
  have hep := hepAll k
  refine ⟨hbt, hep, ?_⟩
  have := compress_eq hbt hep
  rw [List.append_nil] at this
  rw [this]
  have hlen : (HTree.serialize (HTree.leaf s n [])).length = 9 := by
    simp [serialize, byteToBits]
  rw [hlen]

/-- C8, witness at `s = 97`, `n = 5`, `k = 3`. -/
theorem c8_single_symbol_witness :
    buildTree (List.replicate 3 97) (some [(97, 5)]) = some (HTree.leaf 97 5 []) ∧
    encodePayload (HTree.leaf 97 5 []).codes (List.replicate 3 97) = some [] ∧
    compress (List.replicate 3 97) (some [(97, 5)]) =
      some (bitsToBytes (List.replicate 6 false ++ true ::
        (HTree.serialize (HTree.leaf 97 5 [])))) :=
  c8_single_symbol 97 5 3 (by decide)

/-- All-zero byte buffers carry no `1` bit. -/
theorem bytesToBits_zero (data : List Nat) (h : ∀ x ∈ data, x = 0) :
    bytesToBits data = List.replicate (8 * data.length) false := by
  induction data with
  | nil => rfl
  | cons b bs ih =>
      have hb : b = 0 := h b (by simp)
      subst hb
      rw [bytesToBits, ih (fun x hx => h x (by simp [hx]))]
      rw [show byteToBits 0 = List.replicate 8 false from rfl]
      rw [← List.replicate_add]
      congr 1
      simp [Nat.mul_succ]
      omega

/-- C9: on an input with no `1` bit at all — the empty sequence or
all-zero bytes — the padding scan exhausts the stream and the uncaught
`ReadError` surfaces (the model's `padError`, raised before any tree
deserialization or payload decoding, hence independent of the payload
fuel). -/
theorem c9_all_zero_pad_error (data : List Nat) (h : ∀ x ∈ data, x = 0) (fuel : Nat) :
    decompressFuel fuel data = some DOut.padError := by
  unfold decompressFuel
  rw [bytesToBits_zero data h, skipPadding_replicate]

/-- C9, witness at `data = [0, 0]`. -/
theorem c9_all_zero_pad_error_witness :
    decompressFuel 5 [0, 0] = some DOut.padError ∧
    decompressFuel 17 [] = some DOut.padError :=
  ⟨c9_all_zero_pad_error [0, 0] (by decide) 5,
   c9_all_zero_pad_error [] (by decide) 17⟩

/-- C10: whenever `decompress` reaches the payload loop with an
internal-node root, it terminates normally: each iteration's root descent
consumes at least one bit (`treeRead_node_length`), the stream after
padding and tree is under `8 * |data|` bits, so the loop's fuel never runs
out and some byte list is returned. -/
theorem c10_decode_terminates (data : List Nat) (rest rest2 : List Bool)
    (w sy : Nat) (l r : HTree)
    (h1 : skipPadding (bytesToBits data) = some rest)
    (h2 : HTree.deserialize rest = some (HTree.node w sy l r, rest2)) :
    ∃ out, decompress data = some (DOut.ok out) := by
  have hr1 : rest.length < (bytesToBits data).length := skipPadding_length h1
  have hr2 : rest2.length ≤ rest.length := deserializeAux_length _ h2
  have hbl : (bytesToBits data).length = 8 * data.length := bytesToBits_length data
  obtain ⟨out, hout⟩ :=
    @decodeLoop_some_of_node (8 * data.length + 1) w sy l r rest2 [] (by omega)
  refine ⟨out, ?_⟩
  unfold decompress decompressFuel
  simp only [h1, h2, hout]
  rfl

/-- C10, witness: `compress [49, 50]`'s output `[41, 140, 202]`, whose
deserialized tree root is internal. -/
theorem c10_decode_terminates_witness :
    ∃ out, decompress [41, 140, 202] = some (DOut.ok out) :=
  c10_decode_terminates [41, 140, 202]
    (HTree.serialize (HTree.node 2 49 (HTree.leaf 49 1 [true]) (HTree.leaf 50 1 [false]))
      ++ [true, false])
    [true, false] 0 49 (HTree.leaf 49 0 [true]) (HTree.leaf 50 0 [false])
    (by decide) (by decide)

end Huffman
